import Mathlib

/-!
Verification of the kudoboard-api blob-storage layer and its orphaned-file
garbage collector (`internal/services/storage`): a shallow embedding of the
storage helpers (`storage.go`), the two backends (`local.go`, `s3.go`) and the
cleanup job (`cleanup.go`), with theorems checking the natural-language
specification against it.

Strings are modelled by Lean `String`; all character-level operations are
defined on `String.data` (`List Char`), which agrees with Go's byte-wise
operations on UTF-8 strings because UTF-8 byte order coincides with
codepoint order.  Nondeterministic inputs of the code (the clock, the random
uuid, network outcomes) are passed as explicit parameters.
-/

namespace Kudoboard

/-! ## Go string primitives

Each definition mirrors one Go standard-library function as used by the
storage package, specialised where the code always calls it the same way
(`strings.ReplaceAll(s, "\\", "/")` replaces a single character, so it is a
character map). -/

/-- Go byte-wise `<` on strings (`a < b` in Go), as lexicographic order on
the character lists. -/
def ltL : List Char → List Char → Bool
  | [], [] => false
  | [], _ :: _ => true
  | _ :: _, [] => false
  | a :: as, b :: bs => if a = b then ltL as bs else decide (a < b)

/-- Go byte-wise `<=` on strings. -/
def leL (a b : List Char) : Bool := ltL a b || a == b

/-- Go `strings.HasPrefix s pre` (first argument the string, second the
prefix to test). -/
def hasPrefixL : List Char → List Char → Bool
  | _, [] => true
  | [], _ :: _ => false
  | c :: cs, p :: ps => c == p && hasPrefixL cs ps

/-- Go `strings.HasPrefix` on `String`. -/
def goHasPrefix (s pre : String) : Bool := hasPrefixL s.data pre.data

/-- Go `strings.TrimPrefix`: drops `pre` when it is a prefix of `s`, else
returns `s` unchanged. -/
def goTrimPrefix (s pre : String) : String :=
  if goHasPrefix s pre then String.mk (s.data.drop pre.data.length) else s

/-- Go `strings.HasSuffix` on character lists. -/
def hasSuffixL (s suf : List Char) : Bool := hasPrefixL s.reverse suf.reverse

/-- Go `strings.TrimSuffix`. -/
def goTrimSuffix (s suf : String) : String :=
  if hasSuffixL s.data suf.data then
    String.mk (s.data.take (s.data.length - suf.data.length))
  else s

/-- The text before the first occurrence of `c` (all of `l` when `c` is
absent); how Go's `net/url` cuts a URL at `#` and `?`. -/
def takeUntil (c : Char) (l : List Char) : List Char := l.takeWhile (fun x => x ≠ c)

/-- `strings.ReplaceAll s "\\" "/"`: the pattern is a single character, so
the replacement is a character map. -/
def backslashToSlash (l : List Char) : List Char :=
  l.map (fun c => if c = '\\' then '/' else c)

/-- `strings.ReplaceAll · "\\" "/"` on `String`. -/
def goReplaceBackslash (s : String) : String := String.mk (backslashToSlash s.data)

/-! ## Go `path/filepath` on forward-slash paths

The deployment targets Unix paths (the separator is `/`), so
`filepath.Clean`, `filepath.Join` and `filepath.Ext` are modelled for that
separator.  `filepath.Clean` is implemented by splitting on `/` and
resolving `.` and `..` elements, which agrees with Go's character-level
scanner. -/

/-- Split a character list at every `/` (like `strings.Split s "/"`):
`splitSlash "a/b" = [a, b]`, `splitSlash "" = [[]]`. -/
def splitSlash : List Char → List (List Char)
  | [] => [[]]
  | c :: rest =>
    if c = '/' then [] :: splitSlash rest
    else
      match splitSlash rest with
      | [] => [[c]]
      | g :: gs => (c :: g) :: gs

/-- Join groups with `/` (inverse of `splitSlash`). -/
def joinSlash : List (List Char) → List Char
  | [] => []
  | [g] => g
  | g :: gs => g ++ '/' :: joinSlash gs

/-- One element of the resolution of `filepath.Clean`: drop empty and `.`
elements, resolve `..` against the element stack (at the root of a rooted
path a `..` vanishes; in a relative path an unmatched `..` is kept). -/
def cleanStep (rooted : Bool) (acc : List (List Char)) (c : List Char) :
    List (List Char) :=
  if c = [] ∨ c = ['.'] then acc
  else if c = ['.', '.'] then
    match acc with
    | [] => if rooted then [] else [['.', '.']]
    | a :: rest => if a = ['.', '.'] then c :: acc else rest
  else c :: acc

/-- The element resolution of `filepath.Clean` over the whole path. -/
def cleanParts (rooted : Bool) (parts : List (List Char)) : List (List Char) :=
  (parts.foldl (cleanStep rooted) []).reverse

/-- Whether the path is absolute (`path[0] == '/'`). -/
def isRooted : List Char → Bool
  | [] => false
  | c :: _ => c = '/'

/-- Go `filepath.Clean` on character lists. -/
def cleanData (l : List Char) : List Char :=
  if l = [] then ['.']
  else
    let out := joinSlash (cleanParts (isRooted l) (splitSlash l))
    let out := if isRooted l then '/' :: out else out
    if out = [] then ['.'] else out

/-- Go `filepath.Clean`. -/
def goCleanPath (s : String) : String := String.mk (cleanData s.data)

/-- Go `filepath.Join a b`: non-empty elements joined with `/`, then
cleaned; all-empty input stays empty. -/
def goJoin (a b : String) : String :=
  if a = "" ∧ b = "" then ""
  else if a = "" then goCleanPath b
  else if b = "" then goCleanPath a
  else goCleanPath (String.mk (a.data ++ '/' :: b.data))

/-- Go `filepath.Ext`: the suffix from the last `.` in the final path
element (empty when the final element has no dot). -/
def extData : List Char → List Char
  | [] => []
  | c :: rest =>
    let r := extData rest
    if r = [] ∧ c = '.' ∧ rest.all (fun x => x ≠ '/') then c :: rest else r

/-- Go `filepath.Ext` on `String`. -/
def goExt (s : String) : String := String.mk (extData s.data)

/-! ## Go `net/url` path extraction

`extractPathFromURL` calls `url.Parse` only on strings that start with
`http://` or `https://`; `urlPathData` models what `url.Parse(raw).Path`
computes for those: cut the fragment at the first `#`, cut the query at the
first `?`, skip the authority (up to the first `/` after the scheme's
`//`), percent-decode the remaining path (an invalid escape is an error).
`url.Parse` rejects ASCII control characters anywhere, and validates the
host; the model accepts the unreserved host characters (letters, digits,
`.`, `-`), which covers every host the backends construct, and rejects the
rest. -/

/-- ASCII control character (rejected by `url.Parse`): below the space
character, or delete (0x7f); stated on the scalar value. -/
def isCtl (c : Char) : Bool := c.toNat < 0x20 || c.toNat == 0x7f

/-- Value of a hex digit, or `none`. -/
def hexVal (c : Char) : Option Nat :=
  if '0' ≤ c ∧ c ≤ '9' then some (c.toNat - '0'.toNat)
  else if 'a' ≤ c ∧ c ≤ 'f' then some (c.toNat - 'a'.toNat + 10)
  else if 'A' ≤ c ∧ c ≤ 'F' then some (c.toNat - 'A'.toNat + 10)
  else none

/-- Percent-decoding as `net/url.unescape` performs it on a path: each `%`
must be followed by two hex digits, else the whole parse fails. -/
def percentDecode : List Char → Option (List Char)
  | [] => some []
  | c :: rest =>
    if c = '%' then
      match rest with
      | a :: b :: rest2 =>
        match hexVal a, hexVal b with
        | some ha, some hb =>
          (percentDecode rest2).map (fun r => Char.ofNat (16 * ha + hb) :: r)
        | _, _ => none
      | _ => none
    else (percentDecode rest).map (fun r => c :: r)

/-- Host characters the model accepts (letters, digits, dot, hyphen — the
hosts the backends build are of this shape). -/
def hostCharOK (c : Char) : Bool :=
  (0x30 ≤ c.toNat && c.toNat ≤ 0x39) || (0x41 ≤ c.toNat && c.toNat ≤ 0x5a) ||
    (0x61 ≤ c.toNat && c.toNat ≤ 0x7a) || c == '.' || c == '-'

/-- `url.Parse(raw).Path` for a raw URL starting with `http://` or
`https://` (the only calls the storage package makes). -/
def urlPathData (l : List Char) : Except String (List Char) :=
  if l.any isCtl then .error "net/url: invalid control character in URL"
  else
    let noFrag := takeUntil '#' l
    let rest :=
      if hasPrefixL noFrag "https://".data then noFrag.drop 8
      else if hasPrefixL noFrag "http://".data then noFrag.drop 7
      else []
    let beforeQuery := takeUntil '?' rest
    let host := beforeQuery.takeWhile (fun c => c ≠ '/')
    let rawPath := beforeQuery.drop host.length
    if host.all hostCharOK then
      match percentDecode rawPath with
      | some p => .ok p
      | none => .error "invalid URL escape"
    else .error "net/url: invalid character in host name"

/-! ## `storage.go`: the shared helpers -/

/-- `extractPathFromURL` (`storage.go`): an `http(s)` URL yields the URL's
path without its leading `/`; a `/uploads/`-prefixed local reference yields
the part after `/uploads/`; anything else is returned unchanged. -/
def extractPathFromURL (fileURL : String) : Except String String :=
  if goHasPrefix fileURL "http://" ∨ goHasPrefix fileURL "https://" then
    match urlPathData fileURL.data with
    | .ok p =>
      .ok (String.mk (if hasPrefixL p "/".data then p.drop 1 else p))
    | .error e => .error ("invalid URL format: " ++ e)
  else if goHasPrefix fileURL "/uploads/" then
    .ok (goTrimPrefix fileURL "/uploads/")
  else
    .ok fileURL

/-- `generateUniqueFilename` (`storage.go`): strips the extension, appends
the timestamp (`time.Now().Format("20060102150405")`) and the first eight
characters of a fresh uuid, and restores the extension.  The clock and the
uuid are nondeterministic inputs of the code, passed here as parameters. -/
def generateUniqueFilename (timestamp uniqueID : String) (originalFilename : String) : String :=
  let ext := goExt originalFilename
  let name := goTrimSuffix originalFilename ext
  name ++ "-" ++ timestamp ++ "-" ++ uniqueID ++ ext

/-! ## Backend URL construction -/

/-- `LocalStorage.GetURL` (`local.go`): the fixed `/uploads/` URL prefix in
front of the forward-slash form of the relative path. -/
def localGetURL (filename : String) : String :=
  "/uploads/" ++ goReplaceBackslash filename

/-- `S3Storage.GetURL` (`s3.go`):
`https://<bucket>.s3.<region>.amazonaws.com/<key>`. -/
def s3GetURL (bucket region key : String) : String :=
  "https://" ++ bucket ++ ".s3." ++ region ++ ".amazonaws.com/" ++ key

/-! ## Backend object operations

The filesystem (respectively the bucket) is modelled by the list of stored
paths (keys); I/O itself is reliable in the model — `os.Remove` of an
existing file succeeds, the bucket answers every request — so the only
failures are the ones the code's own logic produces. -/

/-- `storage.go`'s `FileInfo` as the save operations return it. -/
structure SaveInfo where
  filename : String
  size : Int
  contentType : String
  url : String
deriving DecidableEq, Repr

/-- `LocalStorage.Delete` (`local.go`): resolve the reference to a relative
path and join it under the base path; when no such file exists the call
returns `nil` (idempotent deletion), otherwise the file is removed. -/
def localDelete (basePath : String) (fs : List String) (fileURL : String) :
    List String × Option String :=
  match extractPathFromURL fileURL with
  | .error e => (fs, some ("failed to parse file URL: " ++ e))
  | .ok relativePath =>
    let fullPath := goJoin basePath relativePath
    if fs.contains fullPath then
      (fs.filter (fun p => !(p == fullPath)), none)
    else
      (fs, none)

/-- An object in the S3 bucket (key and last-modified time, in nanoseconds
since the epoch). -/
structure S3Object where
  key : String
  modTime : Int
deriving DecidableEq, Repr

/-- `S3Storage.Delete` (`s3.go`): resolve the reference to a key, then
`HeadObject`; with a reliable network the head fails exactly when the key
is absent, in which case the call returns the `file not found` error.
Otherwise `DeleteObject` and the `WaitUntilObjectNotExists` confirmation
succeed and the call returns `nil`. -/
def s3Delete (objs : List S3Object) (fileURL : String) :
    List S3Object × Option String :=
  match extractPathFromURL fileURL with
  | .error e => (objs, some ("failed to parse file URL: " ++ e))
  | .ok key =>
    if objs.any (fun o => o.key == key) then
      (objs.filter (fun o => !(o.key == key)), none)
    else
      (objs, some ("file not found: " ++ key))

/-- The relative path (equally: the S3 key before backslash normalisation)
under which `Save`/`SaveFromReader` store an upload called
`originalFilename` into `directory`. -/
def saveRelativePath (timestamp uniqueID originalFilename directory : String) : String :=
  goJoin directory (generateUniqueFilename timestamp uniqueID originalFilename)

/-- Outcome of the `HeadObject` metadata fetch `S3Storage.SaveFromReader`
issues after its upload: success with the reported `ContentLength` (the
field is a pointer and may be absent), or a failure. -/
inductive HeadOutcome where
  | ok (contentLength : Option Int)
  | err
deriving DecidableEq, Repr

/-- `S3Storage.SaveFromReader` (`s3.go`): generate the unique filename,
build the key, upload (`uploadErr` is the uploader's outcome), then fetch
the size by a `HeadObject`; `size` stays `0` unless the head succeeds and
reports a content length, and the call still returns the `FileInfo`. -/
def s3SaveFromReader (bucket region : String) (uploadErr : Option String)
    (head : HeadOutcome) (timestamp uniqueID filename contentType directory : String) :
    Except String SaveInfo :=
  let uniqueFilename := generateUniqueFilename timestamp uniqueID filename
  let key := goReplaceBackslash (goJoin directory uniqueFilename)
  match uploadErr with
  | some e => .error ("failed to upload file: " ++ e)
  | none =>
    let size : Int :=
      match head with
      | .ok (some len) => len
      | _ => 0
    .ok ⟨uniqueFilename, size, contentType, s3GetURL bucket region key⟩

/-! ## `cleanup.go`: the orphaned-file cleanup service -/

/-- The fields of `FileInfo` the cleanup job reads and writes (`URL` and
`ModTime`); `time.Time.Before` is `<` on nanoseconds since the epoch. -/
structure CFileInfo where
  url : String
  modTime : Int
deriving DecidableEq, Repr

/-- The owning columns `findOrphanedFiles` cross-references, as the column
values currently live in the database: `posts.media_path` restricted to
rows with `media_source = 'internal'`, `themes.icon_url`,
`themes.background_image_url`, `users.profile_picture`. -/
structure DBRefs where
  postMediaInternal : List String
  themeIcon : List String
  themeBg : List String
  userProfile : List String

/-- `findOrphanedFiles` (`cleanup.go`): each table is queried once for the
candidate paths it contains (an `IN (...)` membership test, modelled as a
filter of the column values), the hits are unioned into one set, and the
files whose URL is not in it are the orphans. -/
def findOrphanedFiles (db : DBRefs) (files : List CFileInfo) : List CFileInfo :=
  let filePaths := files.map (fun f => f.url)
  let existingPaths :=
    db.postMediaInternal.filter (fun p => filePaths.contains p) ++
      db.themeIcon.filter (fun p => filePaths.contains p) ++
      db.themeBg.filter (fun p => filePaths.contains p) ++
      db.userProfile.filter (fun p => filePaths.contains p)
  files.filter (fun f => !(existingPaths.contains f.url))

/-- The body of `listLocalFilesBatch`'s `filepath.Walk` over a prefix
directory that holds its files directly (the flat special case of
`walkLocal` below, where a `filepath.SkipDir` from a file ends the whole
walk because the containing directory is the walk root): entries arrive in
the walk's order; while `skipUntilAfter` is set, entries with URL
`<= startAfter` are skipped and the first later entry clears it;
collection stops once the batch is full (`need` is the remaining capacity,
initially the batch size). -/
def walkCollect (startAfter : String) : Nat → Bool → List CFileInfo → List CFileInfo
  | _, _, [] => []
  | need, skipFlag, f :: rest =>
    if skipFlag && leL f.url.data startAfter.data then
      walkCollect startAfter need skipFlag rest
    else if need ≤ 1 then [f]
    else f :: walkCollect startAfter (need - 1) false rest

/-- `listLocalFilesBatch` (`cleanup.go`) over a flat prefix directory: the
filesystem under the upload root is the list of stored objects in the
order `filepath.Walk` visits them; the walk of the prefix directory sees
exactly the entries whose URL extends `/uploads/<pre>`.  A missing
directory gives an empty result; disk errors are not modelled.  This is
the restriction of `listLocalFilesBatchTree` below to a directory whose
files are stored directly in it (`listLocalFilesBatchTree_flat`); with
nested subdirectories the `filepath.SkipDir` overshoot of `walkLocal`
applies instead. -/
def listLocalFilesBatch (st : List CFileInfo) (pre startAfter : String)
    (size : Nat) : List CFileInfo :=
  let entries := st.filter (fun f => goHasPrefix f.url ("/uploads/" ++ pre))
  walkCollect startAfter size (!(startAfter == "")) entries

/-- The effectful operations `cleanPrefix` performs, abstract over the
storage-and-database state `σ`: `listFilesBatch` (the storage-type
dispatch), `findOrphanedFiles` (the bulk queries) and `storage.Delete`.
Listing and querying leave the state unchanged; a delete returns the new
state and `nil` or an error. -/
structure CleanupEnv (σ : Type) where
  listBatch : σ → String → String → Nat → Except String (List CFileInfo)
  findOrphans : σ → List CFileInfo → Except String (List CFileInfo)
  deleteFile : σ → String → σ × Option String

/-- What one `cleanPrefix` call produces: the state after the pass, its
three counters, the files it passed to `storage.Delete` in order (each such
call is logged by the code; the list is that observable trace), and the
returned error value. -/
structure PrefixResult (σ : Type) where
  st : σ
  processed : Nat
  deleted : Nat
  errors : Nat
  delCalls : List CFileInfo
  err : Option String

/-- `batchSize` constant of `cleanPrefix`. -/
def batchSize : Nat := 100

/-- The delete loop of `cleanPrefix` over one page's orphans: every orphan
is attempted; a failure increments the error counter and is skipped, a
success increments the deleted counter. -/
def deleteOrphans {σ : Type} (env : CleanupEnv σ) :
    List CFileInfo → σ × Nat × Nat × List CFileInfo → σ × Nat × Nat × List CFileInfo
  | [], acc => acc
  | f :: rest, (s, deleted, errors, calls) =>
    match env.deleteFile s f.url with
    | (s2, none) => deleteOrphans env rest (s2, deleted + 1, errors, calls ++ [f])
    | (s2, some _) => deleteOrphans env rest (s2, deleted, errors + 1, calls ++ [f])

/-- The cursor update of the loop: `lastKey = files[len(files)-1].URL` when
the page is non-empty, the old cursor otherwise. -/
def lastUrl (files : List CFileInfo) (lastKey : String) : String :=
  match files.getLast? with
  | some f => f.url
  | none => lastKey

/-- The paging loop of `cleanPrefix` (`cleanup.go` lines 85–145), with
explicit fuel (`none` when the fuel ends before the prefix does; the
theorems instantiate sufficient fuel): list a page — an error ends the
prefix with the wrapped error, an empty page ends it normally; the
candidates (`filesToCheck`, written out as the filter) are the page's
entries strictly older than `minAge`; with no candidates the cursor
advances to the page's last URL and the loop continues; a
`findOrphanedFiles` error ends the prefix with the wrapped error;
otherwise the orphans are deleted one by one, the cursor advances, and a
page shorter than the batch size ends the prefix. -/
def cleanPrefixLoop {σ : Type} (env : CleanupEnv σ) (minAge : Int) (pre : String) :
    Nat → σ → String → Nat → Nat → Nat → List CFileInfo → Option (PrefixResult σ)
  | 0, _, _, _, _, _, _ => none
  | fuel + 1, s, lastKey, processed, deleted, errors, calls =>
    match env.listBatch s pre lastKey batchSize with
    | .error e =>
      some ⟨s, processed, deleted, errors, calls, some ("failed to list files: " ++ e)⟩
    | .ok files =>
      if files.isEmpty then some ⟨s, processed, deleted, errors, calls, none⟩
      else
        if (files.filter (fun f => f.modTime < minAge)).isEmpty then
          cleanPrefixLoop env minAge pre fuel s (lastUrl files lastKey)
            (processed + (files.filter (fun f => f.modTime < minAge)).length)
            deleted errors calls
        else
          match env.findOrphans s (files.filter (fun f => f.modTime < minAge)) with
          | .error e =>
            some ⟨s, processed + (files.filter (fun f => f.modTime < minAge)).length,
              deleted, errors, calls, some ("failed to find orphaned files: " ++ e)⟩
          | .ok orphanedFiles =>
            match deleteOrphans env orphanedFiles (s, deleted, errors, calls) with
            | (s2, deleted2, errors2, calls2) =>
              if files.length < batchSize then
                some ⟨s2, processed + (files.filter (fun f => f.modTime < minAge)).length,
                  deleted2, errors2, calls2, none⟩
              else
                cleanPrefixLoop env minAge pre fuel s2 (lastUrl files lastKey)
                  (processed + (files.filter (fun f => f.modTime < minAge)).length)
                  deleted2 errors2 calls2

/-- `cleanPrefix`: the loop from the empty cursor and zero counters. -/
def cleanPrefix {σ : Type} (env : CleanupEnv σ) (fuel : Nat) (minAge : Int)
    (pre : String) (s : σ) : Option (PrefixResult σ) :=
  cleanPrefixLoop env minAge pre fuel s "" 0 0 0 []

/-- The prefix list of `CleanOrphanedFiles`. -/
def cleanupPrefixes : List String :=
  ["image/", "avatar/", "gif/", "video/", "theme/", "icon/", "general/"]

/-- The running totals of `CleanOrphanedFiles`, with the delete trace. -/
structure RunAcc (σ : Type) where
  st : σ
  processed : Nat
  deleted : Nat
  errors : Nat
  delCalls : List CFileInfo

/-- One iteration of the prefix loop in `CleanOrphanedFiles`: on a
`cleanPrefix` error that prefix's counters are dropped (the error is only
logged) and the loop moves on with the possibly mutated state; on success
the counters are added to the totals. -/
def runPrefixStep {σ : Type} (env : CleanupEnv σ) (fuel : Nat) (minAge : Int)
    (acc : Option (RunAcc σ)) (pre : String) : Option (RunAcc σ) :=
  match acc with
  | none => none
  | some a =>
    match cleanPrefix env fuel minAge pre a.st with
    | none => none
    | some r =>
      match r.err with
      | some _ => some ⟨r.st, a.processed, a.deleted, a.errors, a.delCalls ++ r.delCalls⟩
      | none =>
        some ⟨r.st, a.processed + r.processed, a.deleted + r.deleted,
          a.errors + r.errors, a.delCalls ++ r.delCalls⟩

/-- The prefix loop of `CleanOrphanedFiles` over a list of prefixes. -/
def runPrefixes {σ : Type} (env : CleanupEnv σ) (fuel : Nat) (minAge : Int)
    (ps : List String) (acc : Option (RunAcc σ)) : Option (RunAcc σ) :=
  ps.foldl (runPrefixStep env fuel minAge) acc

/-- `CleanOrphanedFiles` (`cleanup.go`): process every prefix in order; the
second component is the function's Go return value, which the code fixes to
`nil` after the loop. -/
def cleanOrphanedFiles {σ : Type} (env : CleanupEnv σ) (fuel : Nat) (minAge : Int)
    (s : σ) : Option (RunAcc σ × Option String) :=
  (runPrefixes env fuel minAge cleanupPrefixes (some ⟨s, 0, 0, 0, []⟩)).map
    (fun a => (a, none))

/-- `LocalStorage.Delete` as the cleanup job drives it, on the URL-keyed
store: the reference is resolved to a relative path and, since every stored
object's URL is exactly its `/uploads/`-prefixed relative path, removing
`<basePath>/<rel>` removes the entry with URL `/uploads/<rel>`; a missing
object is a success. -/
def localDeleteURL (st : List CFileInfo) (fileURL : String) :
    List CFileInfo × Option String :=
  match extractPathFromURL fileURL with
  | .error e => (st, some ("failed to parse file URL: " ++ e))
  | .ok rel =>
    let url := "/uploads/" ++ rel
    if st.any (fun f => f.url == url) then
      (st.filter (fun f => !(f.url == url)), none)
    else (st, none)

/-- The cleanup environment over the local backend: listing pages through
the URL-keyed store, the database is the fixed `DBRefs`, deleting is
`LocalStorage.Delete`. -/
def localEnv (db : DBRefs) : CleanupEnv (List CFileInfo) where
  listBatch st pre startAfter n := .ok (listLocalFilesBatch st pre startAfter n)
  findOrphans _ files := .ok (findOrphanedFiles db files)
  deleteFile st url := localDeleteURL st url

/-- Character class of S3 keys that survive the URL round-trip: no control
characters and none of `?`, `#`, `%` (which `url.Parse` treats as query,
fragment and escape markers). -/
def s3KeyCharOK (c : Char) : Bool :=
  !(isCtl c) && !(c == '?') && !(c == '#') && !(c == '%')

/-- A path element `filepath.Clean` keeps unchanged: non-empty and neither
`.` nor `..`. -/
def cleanPart (p : List Char) : Bool :=
  !(p == []) && !(p == ['.']) && !(p == ['.', '.'])

/-! ### Concrete fixtures for counterexamples and witnesses -/

/-- An environment whose listing always fails (every prefix errors). -/
def envErr : CleanupEnv Unit where
  listBatch _ _ _ _ := .error "io"
  findOrphans _ _ := .error "db"
  deleteFile s _ := (s, none)

/-- A full first page (100 old files) under `image/`. -/
def page1 : List CFileInfo :=
  (List.range batchSize).map (fun i => ⟨"/uploads/image/f" ++ toString (100 + i), -1⟩)

/-- An environment with two pages under `image/` (100 files, then 1 file)
whose cross-reference query always fails. -/
def envC4 : CleanupEnv Unit where
  listBatch _ pre lastKey _ :=
    if pre == "image/" then
      if lastKey == "" then .ok page1
      else if lastKey == "/uploads/image/f199" then .ok [⟨"/uploads/image/f200", -1⟩]
      else .ok []
    else .ok []
  findOrphans _ _ := .error "db down"
  deleteFile s _ := (s, none)

/-- An environment whose deletes always fail. -/
def envDelFail : CleanupEnv Unit where
  listBatch _ _ _ _ := .ok []
  findOrphans _ _ := .ok []
  deleteFile s _ := (s, some "denied")

/-! ## Order lemmas for the byte-wise string order -/

theorem ltL_irrefl (l : List Char) : ltL l l = false := by
  induction l with
  | nil => rfl
  | cons a as ih => simp [ltL, ih]

theorem ne_of_ltL {a b : List Char} (h : ltL a b = true) : a ≠ b := by
  intro e
  subst e
  simp [ltL_irrefl] at h

theorem ltL_nil_of_ne_nil {b : List Char} (h : b ≠ []) : ltL [] b = true := by
  cases b with
  | nil => exact absurd rfl h
  | cons x xs => simp [ltL]

/-- Strings with different character lists differ. -/
theorem string_ne_of_data_ne {a b : String} (h : a.data ≠ b.data) : a ≠ b :=
  fun e => h (congrArg String.data e)

theorem string_eq_of_data_eq {a b : String} (h : a.data = b.data) : a = b := by
  cases a
  cases b
  exact congrArg String.mk (by simpa using h)

/-! ## Prefix lemmas -/

theorem hasPrefixL_iff {s p : List Char} : hasPrefixL s p = true ↔ p <+: s := by
  induction p generalizing s with
  | nil => simp [hasPrefixL]
  | cons c cs ih =>
    cases s with
    | nil => simp [hasPrefixL]
    | cons x xs =>
      simp only [hasPrefixL, Bool.and_eq_true, beq_iff_eq, List.cons_prefix_cons, ih]
      tauto

theorem hasPrefixL_append (p r : List Char) : hasPrefixL (p ++ r) p = true :=
  hasPrefixL_iff.mpr ⟨r, rfl⟩

theorem goHasPrefix_append (p r : String) : goHasPrefix (p ++ r) p = true := by
  simpa [goHasPrefix] using hasPrefixL_append p.data r.data

/-! ## String plumbing -/

theorem data_append (a b : String) : (a ++ b).data = a.data ++ b.data := rfl

theorem mk_data (a : String) : String.mk a.data = a := rfl

/-! ## Lemmas on the URL-path model -/

theorem percentDecode_of_no_pct {l : List Char} (h : ∀ c ∈ l, c ≠ '%') :
    percentDecode l = some l := by
  induction l with
  | nil => rfl
  | cons c rest ih =>
    have hc : c ≠ '%' := h c (List.mem_cons_self c rest)
    have hr : percentDecode rest = some rest :=
      ih (fun x hx => h x (List.mem_cons_of_mem c hx))
    cases rest with
    | nil => simp [percentDecode, hc]
    | cons a rest2 =>
      have ha : a ≠ '%' := h a (by simp)
      cases rest2 with
      | nil => simp [percentDecode, hc, ha]
      | cons b rest3 => simp [percentDecode, hc, hr]

theorem takeUntil_eq_self {ch : Char} {l : List Char} (h : ∀ c ∈ l, c ≠ ch) :
    takeUntil ch l = l := by
  induction l with
  | nil => rfl
  | cons c rest ih =>
    have hc : c ≠ ch := h c (List.mem_cons_self c rest)
    simp only [takeUntil, List.takeWhile_cons] at *
    rw [if_pos (by simpa using hc)]
    rw [ih (fun x hx => h x (List.mem_cons_of_mem c hx))]

theorem takeWhile_middle {p : Char → Bool} {l₁ l₂ : List Char} {c : Char}
    (h₁ : ∀ x ∈ l₁, p x = true) (hc : p c = false) :
    (l₁ ++ c :: l₂).takeWhile p = l₁ := by
  induction l₁ with
  | nil => simp [List.takeWhile_cons, hc]
  | cons x xs ih =>
    have hx : p x = true := h₁ x (List.mem_cons_self x xs)
    simp only [List.cons_append, List.takeWhile_cons, hx, if_pos]
    rw [ih (fun y hy => h₁ y (List.mem_cons_of_mem x hy))]

theorem hostCharOK_not_ctl {c : Char} (h : hostCharOK c = true) : isCtl c = false := by
  simp only [hostCharOK, Bool.or_eq_true, Bool.and_eq_true, decide_eq_true_eq,
    beq_iff_eq] at h
  simp only [isCtl, Bool.or_eq_false_iff, decide_eq_false_iff_not, not_lt,
    beq_eq_false_iff_ne, ne_eq]
  rcases h with (((⟨h1, h2⟩ | ⟨h1, h2⟩) | ⟨h1, h2⟩) | h) | h
  · omega
  · omega
  · omega
  · subst h
    refine ⟨by decide, by decide⟩
  · subst h
    refine ⟨by decide, by decide⟩

theorem hostCharOK_ne {c : Char} (h : hostCharOK c = true) :
    c ≠ '/' ∧ c ≠ '?' ∧ c ≠ '#' ∧ c ≠ '%' := by
  refine ⟨?_, ?_, ?_, ?_⟩ <;> · intro e; subst e; exact absurd h (by decide)

theorem s3KeyCharOK_spec {c : Char} (h : s3KeyCharOK c = true) :
    isCtl c = false ∧ c ≠ '?' ∧ c ≠ '#' ∧ c ≠ '%' := by
  simp only [s3KeyCharOK, Bool.and_eq_true, Bool.not_eq_true', beq_eq_false_iff_ne] at h
  exact ⟨h.1.1.1, h.1.1.2, h.1.2, h.2⟩

/-- The character list of an S3 public URL, split at its scheme, host and
path. -/
theorem s3GetURL_data (bucket region key : String) :
    (s3GetURL bucket region key).data =
      "https://".data ++
        ((bucket.data ++ ".s3.".data ++ region.data ++ ".amazonaws.com".data) ++
          '/' :: key.data) := by
  have h1 : ".amazonaws.com/".data = ".amazonaws.com".data ++ ['/'] := rfl
  simp [s3GetURL, data_append, h1, List.append_assoc]

theorem hasPrefixL_https_http (R : List Char) :
    hasPrefixL ("https://".data ++ R) "http://".data = false := by
  show hasPrefixL
    ('h' :: 't' :: 't' :: 'p' :: 's' :: ':' :: '/' :: '/' :: R)
    ('h' :: 't' :: 't' :: 'p' :: ':' :: '/' :: '/' :: []) = false
  simp [hasPrefixL]

theorem forall_mem_append_chars {P : Char → Prop} {l₁ l₂ : List Char}
    (h₁ : ∀ c ∈ l₁, P c) (h₂ : ∀ c ∈ l₂, P c) : ∀ c ∈ l₁ ++ l₂, P c := by
  intro c hc
  rcases List.mem_append.mp hc with h | h
  · exact h₁ c h
  · exact h₂ c h

theorem forall_mem_cons_chars {P : Char → Prop} {a : Char} {l : List Char}
    (h₁ : P a) (h₂ : ∀ c ∈ l, P c) : ∀ c ∈ a :: l, P c :=
  List.forall_mem_cons.mpr ⟨h₁, h₂⟩

theorem any_eq_false_of_forall {p : Char → Bool} {l : List Char}
    (h : ∀ c ∈ l, p c = false) : l.any p = false := by
  rw [List.any_eq_false]
  intro x hx
  rw [h x hx]
  simp

theorem urlPathData_s3 (bucket region key : String)
    (hb : bucket.data.all hostCharOK = true) (hr : region.data.all hostCharOK = true)
    (hk : key.data.all s3KeyCharOK = true) :
    urlPathData (s3GetURL bucket region key).data = .ok ('/' :: key.data) := by
  rw [s3GetURL_data]
  set hl := bucket.data ++ ".s3.".data ++ region.data ++ ".amazonaws.com".data with hhl
  have hlOK : ∀ c ∈ hl, hostCharOK c = true := by
    rw [hhl]
    refine forall_mem_append_chars (forall_mem_append_chars (forall_mem_append_chars
      (List.all_eq_true.mp hb) ?_) (List.all_eq_true.mp hr)) ?_
    · decide
    · decide
  have hkOK : ∀ c ∈ key.data, s3KeyCharOK c = true := List.all_eq_true.mp hk
  have hctl : ("https://".data ++ (hl ++ '/' :: key.data)).any isCtl = false := by
    refine any_eq_false_of_forall
      (forall_mem_append_chars (by decide) (forall_mem_append_chars
        (fun c hc => hostCharOK_not_ctl (hlOK c hc))
        (forall_mem_cons_chars (by decide)
          (fun c hc => (s3KeyCharOK_spec (hkOK c hc)).1))))
  have hfrag : takeUntil '#' ("https://".data ++ (hl ++ '/' :: key.data)) =
      "https://".data ++ (hl ++ '/' :: key.data) := by
    refine takeUntil_eq_self
      (forall_mem_append_chars (by decide) (forall_mem_append_chars
        (fun c hc => (hostCharOK_ne (hlOK c hc)).2.2.1)
        (forall_mem_cons_chars (by decide)
          (fun c hc => (s3KeyCharOK_spec (hkOK c hc)).2.2.1))))
  have hquery : takeUntil '?' (hl ++ '/' :: key.data) = hl ++ '/' :: key.data := by
    refine takeUntil_eq_self
      (forall_mem_append_chars
        (fun c hc => (hostCharOK_ne (hlOK c hc)).2.1)
        (forall_mem_cons_chars (by decide)
          (fun c hc => (s3KeyCharOK_spec (hkOK c hc)).2.1)))
  have hhost : (hl ++ '/' :: key.data).takeWhile (fun c => c ≠ '/') = hl := by
    refine takeWhile_middle ?_ (by decide)
    intro x hx
    simpa using (hostCharOK_ne (hlOK x hx)).1
  have hdec : percentDecode ('/' :: key.data) = some ('/' :: key.data) := by
    refine percentDecode_of_no_pct ?_
    intro c hcm
    simp only [List.mem_cons] at hcm
    rcases hcm with hc | hc
    · subst hc; decide
    · exact (s3KeyCharOK_spec (hkOK c hc)).2.2.2
  have hpre : hasPrefixL ("https://".data ++ (hl ++ '/' :: key.data)) "https://".data =
      true := hasPrefixL_append _ _
  have hdrop : ("https://".data ++ (hl ++ '/' :: key.data)).drop 8 =
      hl ++ '/' :: key.data := by
    have h8 : "https://".data.length = 8 := rfl
    rw [← h8, List.drop_left]
  have hdrop2 : (hl ++ '/' :: key.data).drop hl.length = '/' :: key.data :=
    List.drop_left _ _
  have hall : hl.all hostCharOK = true := List.all_eq_true.mpr hlOK
  simp only [urlPathData, hctl, hfrag, hpre, if_true, hdrop, hquery, hhost, hdrop2,
    hall, hdec, Bool.false_eq_true, if_false]

/-- `extractPathFromURL` inverts `S3Storage.GetURL` for keys without `?`,
`#`, `%` or control characters, over hosts of the shape the backend
builds. -/
theorem extractPathFromURL_s3GetURL (bucket region key : String)
    (hb : bucket.data.all hostCharOK = true) (hr : region.data.all hostCharOK = true)
    (hk : key.data.all s3KeyCharOK = true) :
    extractPathFromURL (s3GetURL bucket region key) = .ok key := by
  have h1 : goHasPrefix (s3GetURL bucket region key) "http://" = false := by
    rw [goHasPrefix, s3GetURL_data]
    exact hasPrefixL_https_http _
  have h2 : goHasPrefix (s3GetURL bucket region key) "https://" = true := by
    rw [goHasPrefix, s3GetURL_data]
    exact hasPrefixL_append _ _
  have h3 := urlPathData_s3 bucket region key hb hr hk
  simp only [extractPathFromURL, h1, h2, h3, Bool.false_eq_true, false_or, if_true]
  simp [hasPrefixL, mk_data]

theorem hasPrefixL_slash_http (R : List Char) :
    hasPrefixL ("/uploads/".data ++ R) "http://".data = false := by
  show hasPrefixL ('/' :: _) ('h' :: _) = false
  simp [hasPrefixL]

theorem hasPrefixL_slash_https (R : List Char) :
    hasPrefixL ("/uploads/".data ++ R) "https://".data = false := by
  show hasPrefixL ('/' :: _) ('h' :: _) = false
  simp [hasPrefixL]

/-- `extractPathFromURL` strips the `/uploads/` marker from every local
reference, whatever follows it. -/
theorem extractPathFromURL_uploads (k : String) :
    extractPathFromURL ("/uploads/" ++ k) = .ok k := by
  have hd : ("/uploads/" ++ k).data = "/uploads/".data ++ k.data := rfl
  have h1 : goHasPrefix ("/uploads/" ++ k) "http://" = false := by
    rw [goHasPrefix, hd]
    exact hasPrefixL_slash_http _
  have h2 : goHasPrefix ("/uploads/" ++ k) "https://" = false := by
    rw [goHasPrefix, hd]
    exact hasPrefixL_slash_https _
  have h3 : goHasPrefix ("/uploads/" ++ k) "/uploads/" = true := goHasPrefix_append _ _
  simp only [extractPathFromURL, h1, h2, h3, goTrimPrefix, Bool.false_eq_true, false_or,
    if_false, if_true, hd]
  rw [List.drop_left]

/-- A reference in neither URL nor `/uploads/` form passes through
`extractPathFromURL` unchanged. -/
theorem extractPathFromURL_passthrough (r : String)
    (h1 : goHasPrefix r "http://" = false) (h2 : goHasPrefix r "https://" = false)
    (h3 : goHasPrefix r "/uploads/" = false) :
    extractPathFromURL r = .ok r := by
  simp only [extractPathFromURL, h1, h2, h3, Bool.false_eq_true, false_or, if_false]

theorem backslashToSlash_id {l : List Char} (h : ∀ c ∈ l, c ≠ '\\') :
    backslashToSlash l = l := by
  induction l with
  | nil => rfl
  | cons c rest ih =>
    have hc : c ≠ '\\' := h c (by simp)
    simp only [backslashToSlash, List.map_cons] at *
    rw [if_neg hc, ih (fun x hx => h x (by simp [hx]))]

/-- `extractPathFromURL` inverts `LocalStorage.GetURL` on every
backslash-free relative path. -/
theorem extractPathFromURL_localGetURL (k : String)
    (hk : ∀ c ∈ k.data, c ≠ '\\') :
    extractPathFromURL (localGetURL k) = .ok k := by
  have hid : goReplaceBackslash k = k :=
    string_eq_of_data_eq (backslashToSlash_id hk)
  rw [localGetURL, hid]
  exact extractPathFromURL_uploads k

/-! ## Lemmas on `filepath.Clean`/`Join` -/

theorem splitSlash_ne_nil (l : List Char) : splitSlash l ≠ [] := by
  cases l with
  | nil => simp [splitSlash]
  | cons c rest =>
    by_cases hc : c = '/'
    · simp [splitSlash, hc]
    · cases h : splitSlash rest with
      | nil => simp [splitSlash, hc, h]
      | cons g gs => simp [splitSlash, hc, h]

theorem joinSlash_splitSlash (l : List Char) : joinSlash (splitSlash l) = l := by
  induction l with
  | nil => rfl
  | cons c rest ih =>
    by_cases hc : c = '/'
    · subst hc
      cases h : splitSlash rest with
      | nil => exact absurd h (splitSlash_ne_nil rest)
      | cons g gs =>
        rw [h] at ih
        simp only [splitSlash, if_pos rfl, h, joinSlash]
        rw [List.nil_append, ih]
    · cases h : splitSlash rest with
      | nil => exact absurd h (splitSlash_ne_nil rest)
      | cons g gs =>
        rw [h] at ih
        simp only [splitSlash, if_neg hc, h]
        cases gs with
        | nil =>
          simp only [joinSlash] at ih ⊢
          rw [ih]
        | cons g2 gs2 =>
          simp only [joinSlash] at ih ⊢
          rw [List.cons_append, ih]

theorem splitSlash_append (a b : List Char) :
    splitSlash (a ++ '/' :: b) = splitSlash a ++ splitSlash b := by
  induction a with
  | nil => simp [splitSlash]
  | cons c a2 ih =>
    by_cases hc : c = '/'
    · simp only [List.cons_append, splitSlash, if_pos hc, ih, List.append_eq,
        List.cons_append]
    · cases h : splitSlash a2 with
      | nil => exact absurd h (splitSlash_ne_nil a2)
      | cons g gs =>
        simp only [List.cons_append, splitSlash, if_neg hc, ih, h, List.append_eq,
          List.cons_append]

theorem cleanStep_foldl (rooted : Bool) :
    ∀ (ps : List (List Char)) (acc : List (List Char)),
      (∀ p ∈ ps, cleanPart p = true) →
      ps.foldl (cleanStep rooted) acc = ps.reverse ++ acc := by
  intro ps
  induction ps with
  | nil =>
    intro acc _
    simp
  | cons p ps2 ih =>
    intro acc hps
    have hp : cleanPart p = true := hps p (by simp)
    simp only [cleanPart, Bool.and_eq_true, Bool.not_eq_true', beq_eq_false_iff_ne] at hp
    obtain ⟨⟨hp1, hp2⟩, hp3⟩ := hp
    simp only [List.foldl_cons, cleanStep]
    rw [if_neg (not_or.mpr ⟨hp1, hp2⟩), if_neg hp3]
    rw [ih (p :: acc) (fun q hq => hps q (by simp [hq]))]
    simp

theorem cleanParts_id {parts : List (List Char)} (rooted : Bool)
    (h : ∀ p ∈ parts, cleanPart p = true) : cleanParts rooted parts = parts := by
  rw [cleanParts, cleanStep_foldl rooted parts [] h]
  simp

theorem cleanData_id {l : List Char}
    (h : ∀ p ∈ splitSlash l, cleanPart p = true) : cleanData l = l := by
  have hl : l ≠ [] := by
    intro e
    subst e
    have := h [] (by simp [splitSlash])
    simp [cleanPart] at this
  have hhead : ∀ rest, l = '/' :: rest → False := by
    intro rest e
    subst e
    have := h [] (by simp [splitSlash])
    simp [cleanPart] at this
  have hrooted : isRooted l = false := by
    cases l with
    | nil => rfl
    | cons c rest =>
      by_cases hc : c = '/'
      · exact absurd (by rw [hc]) (fun e => hhead rest e)
      · simp [isRooted, hc]
  rw [cleanData, if_neg hl]
  simp only [hrooted, if_false, Bool.false_eq_true, cleanParts_id false h,
    joinSlash_splitSlash]
  rw [if_neg hl]

/-- On paths whose elements are all plain (`filepath.Clean` is the
identity), `filepath.Join` is plain concatenation with a separator. -/
theorem goJoin_clean {dir f : String}
    (hd : ∀ p ∈ splitSlash dir.data, cleanPart p = true)
    (hf : ∀ p ∈ splitSlash f.data, cleanPart p = true) :
    goJoin dir f = dir ++ "/" ++ f := by
  have hdne : dir ≠ "" := by
    intro e
    subst e
    have := hd [] (by simp [splitSlash])
    simp [cleanPart] at this
  have hfne : f ≠ "" := by
    intro e
    subst e
    have := hf [] (by simp [splitSlash])
    simp [cleanPart] at this
  rw [goJoin, if_neg (by tauto), if_neg hdne, if_neg hfne]
  have hparts : ∀ p ∈ splitSlash (dir.data ++ '/' :: f.data), cleanPart p = true := by
    rw [splitSlash_append]
    intro p hp
    rcases List.mem_append.mp hp with hp | hp
    · exact hd p hp
    · exact hf p hp
  rw [goCleanPath]
  have hdata : (String.mk (dir.data ++ '/' :: f.data)).data = dir.data ++ '/' :: f.data := rfl
  rw [hdata, cleanData_id hparts]
  refine string_eq_of_data_eq ?_
  show dir.data ++ '/' :: f.data = (dir ++ "/" ++ f).data
  simp [data_append, List.append_assoc]

theorem hasSuffixL_append (x s : List Char) : hasSuffixL (x ++ s) s = true := by
  rw [hasSuffixL, List.reverse_append]
  exact hasPrefixL_append _ _

/-! ## Delete lemmas -/

theorem localDelete_err_none {basePath : String} {fs : List String} {fileURL rel : String}
    (h : extractPathFromURL fileURL = .ok rel) :
    (localDelete basePath fs fileURL).2 = none := by
  simp only [localDelete, h]
  cases hc : fs.contains (goJoin basePath rel) <;> simp [hc]

theorem any_filter_not {α : Type} (p : α → Bool) (l : List α) :
    (l.filter (fun o => !(p o))).any p = false := by
  induction l with
  | nil => rfl
  | cons x xs ih =>
    cases hx : p x with
    | true => simp [List.filter_cons, hx, ih]
    | false => simp [List.filter_cons, hx, ih]

/-! ## Cleanup-loop lemmas -/

theorem deleteOrphans_calls {σ : Type} (env : CleanupEnv σ) :
    ∀ (l : List CFileInfo) (s : σ) (d e : Nat) (calls : List CFileInfo),
      (deleteOrphans env l (s, d, e, calls)).2.2.2 = calls ++ l := by
  intro l
  induction l with
  | nil =>
    intro s d e calls
    simp [deleteOrphans]
  | cons f rest ih =>
    intro s d e calls
    simp only [deleteOrphans]
    rcases hdel : env.deleteFile s f.url with ⟨s2, r⟩
    cases r with
    | none =>
      rw [ih]
      simp
    | some msg =>
      rw [ih]
      simp

theorem runPrefixes_none {σ : Type} (env : CleanupEnv σ) (fuel : Nat) (minAge : Int)
    (ps : List String) : runPrefixes env fuel minAge ps none = none := by
  induction ps with
  | nil => rfl
  | cons p ps2 ih =>
    simp only [runPrefixes, List.foldl_cons, runPrefixStep]
    exact ih

theorem cleanPrefixLoop_delCalls {σ : Type} (env : CleanupEnv σ)
    (hFO : ∀ (s : σ) (files r : List CFileInfo),
      env.findOrphans s files = .ok r → ∀ f ∈ r, f ∈ files)
    (minAge : Int) (p : String) :
    ∀ (fuel : Nat) (s : σ) (lastKey : String) (tp td te : Nat) (calls : List CFileInfo)
      (r : PrefixResult σ),
      cleanPrefixLoop env minAge p fuel s lastKey tp td te calls = some r →
      ∀ f ∈ r.delCalls, f ∈ calls ∨ f.modTime < minAge := by
  intro fuel
  induction fuel with
  | zero =>
    intro s lk tp td te calls r h
    simp [cleanPrefixLoop] at h
  | succ n ih =>
    intro s lk tp td te calls r h
    rw [cleanPrefixLoop] at h
    cases hlb : env.listBatch s p lk batchSize with
    | error e =>
      simp only [hlb] at h
      obtain rfl := Option.some.inj h
      intro f hf
      exact Or.inl hf
    | ok files =>
      simp only [hlb] at h
      by_cases hempty : files.isEmpty
      · rw [if_pos hempty] at h
        obtain rfl := Option.some.inj h
        intro f hf
        exact Or.inl hf
      · rw [if_neg hempty] at h
        by_cases hfe : (files.filter (fun f => f.modTime < minAge)).isEmpty
        · rw [if_pos hfe] at h
          exact ih _ _ _ _ _ _ _ h
        · rw [if_neg hfe] at h
          cases hfo : env.findOrphans s (files.filter (fun f => f.modTime < minAge)) with
          | error e =>
            simp only [hfo] at h
            obtain rfl := Option.some.inj h
            intro f hf
            exact Or.inl hf
          | ok orphans =>
            simp only [hfo] at h
            have horph : ∀ f ∈ orphans, f.modTime < minAge := by
              intro f hf
              have hin := hFO s _ orphans hfo f hf
              exact of_decide_eq_true (List.mem_filter.mp hin).2
            rcases hdo : deleteOrphans env orphans (s, td, te, calls) with ⟨s2, d2, e2, c2⟩
            simp only [hdo] at h
            have hc2 : c2 = calls ++ orphans := by
              have := deleteOrphans_calls env orphans s td te calls
              rw [hdo] at this
              exact this
            have hmem : ∀ f ∈ c2, f ∈ calls ∨ f.modTime < minAge := by
              intro f hf
              rw [hc2] at hf
              rcases List.mem_append.mp hf with hf | hf
              · exact Or.inl hf
              · exact Or.inr (horph f hf)
            by_cases hlen : files.length < batchSize
            · rw [if_pos hlen] at h
              obtain rfl := Option.some.inj h
              exact hmem
            · rw [if_neg hlen] at h
              intro f hf
              rcases ih _ _ _ _ _ _ _ h f hf with hf2 | hf2
              · exact hmem f hf2
              · exact Or.inr hf2

theorem runPrefixes_delCalls {σ : Type} (env : CleanupEnv σ)
    (hFO : ∀ (s : σ) (files r : List CFileInfo),
      env.findOrphans s files = .ok r → ∀ f ∈ r, f ∈ files)
    (fuel : Nat) (minAge : Int) :
    ∀ (ps : List String) (a res : RunAcc σ),
      runPrefixes env fuel minAge ps (some a) = some res →
      ∀ f ∈ res.delCalls, f ∈ a.delCalls ∨ f.modTime < minAge := by
  intro ps
  induction ps with
  | nil =>
    intro a res h
    obtain rfl := Option.some.inj h
    intro f hf
    exact Or.inl hf
  | cons p ps2 ih =>
    intro a res h
    rw [runPrefixes, List.foldl_cons] at h
    cases hcp : cleanPrefix env fuel minAge p a.st with
    | none =>
      rw [show runPrefixStep env fuel minAge (some a) p = none by
        simp only [runPrefixStep, hcp]] at h
      rw [show List.foldl (runPrefixStep env fuel minAge) none ps2 =
        runPrefixes env fuel minAge ps2 none from rfl, runPrefixes_none] at h
      exact absurd h (by simp)
    | some rp =>
      have hsub : ∀ f ∈ rp.delCalls, f.modTime < minAge := by
        intro f hf
        rcases cleanPrefixLoop_delCalls env hFO minAge p fuel a.st "" 0 0 0 [] rp hcp
          f hf with hf2 | hf2
        · exact absurd hf2 (List.not_mem_nil f)
        · exact hf2
      have hstep : ∃ a2 : RunAcc σ,
          runPrefixStep env fuel minAge (some a) p = some a2 ∧
          a2.delCalls = a.delCalls ++ rp.delCalls := by
        cases herr : rp.err with
        | some e =>
          refine ⟨⟨rp.st, a.processed, a.deleted, a.errors,
            a.delCalls ++ rp.delCalls⟩, ?_, rfl⟩
          simp only [runPrefixStep, hcp, herr]
        | none =>
          refine ⟨⟨rp.st, a.processed + rp.processed, a.deleted + rp.deleted,
            a.errors + rp.errors, a.delCalls ++ rp.delCalls⟩, ?_, rfl⟩
          simp only [runPrefixStep, hcp, herr]
      obtain ⟨a2, hstep, hcalls⟩ := hstep
      rw [hstep] at h
      intro f hf
      rcases ih a2 res h f hf with hf2 | hf2
      · rw [hcalls] at hf2
        rcases List.mem_append.mp hf2 with hf3 | hf3
        · exact Or.inl hf3
        · exact Or.inr (hsub f hf3)
      · exact Or.inr hf2

theorem localEnv_findOrphans_subset (db : DBRefs) :
    ∀ (s files r : List CFileInfo),
      (localEnv db).findOrphans s files = .ok r → ∀ f ∈ r, f ∈ files := by
  intro s files r h f hf
  have hr : r = findOrphanedFiles db files := (Except.ok.inj h).symm
  subst hr
  exact List.mem_of_mem_filter hf

/-! ## Listing and orphan-detection lemmas -/

theorem cleanPrefix_localEnv_empty (db : DBRefs) (fuel : Nat) (minAge : Int)
    (q : String) (st : List CFileInfo)
    (h : ∀ f ∈ st, goHasPrefix f.url ("/uploads/" ++ q) = false) :
    cleanPrefix (localEnv db) (fuel + 1) minAge q st = some ⟨st, 0, 0, 0, [], none⟩ := by
  have hfil : st.filter (fun f => goHasPrefix f.url ("/uploads/" ++ q)) = [] :=
    List.filter_eq_nil_iff.mpr (fun f hf => by simp [h f hf])
  rw [cleanPrefix, cleanPrefixLoop]
  simp only [localEnv, listLocalFilesBatch, hfil]
  rfl

theorem runPrefixes_inactive (db : DBRefs) (fuel : Nat) (minAge : Int) :
    ∀ (ps : List String) (st : List CFileInfo) (tp td te : Nat) (calls : List CFileInfo),
      (∀ q ∈ ps, ∀ f ∈ st, goHasPrefix f.url ("/uploads/" ++ q) = false) →
      runPrefixes (localEnv db) (fuel + 1) minAge ps (some ⟨st, tp, td, te, calls⟩) =
        some ⟨st, tp, td, te, calls⟩ := by
  intro ps
  induction ps with
  | nil =>
    intro st tp td te calls _
    rfl
  | cons q ps2 ih =>
    intro st tp td te calls hq
    rw [runPrefixes, List.foldl_cons]
    rw [show runPrefixStep (localEnv db) (fuel + 1) minAge (some ⟨st, tp, td, te, calls⟩) q =
        some ⟨st, tp, td, te, calls⟩ by
      simp only [runPrefixStep, cleanPrefix_localEnv_empty db fuel minAge q st
        (hq q (by simp))]
      simp]
    exact ih st tp td te calls (fun r hr => hq r (by simp [hr]))

theorem string_ne_of_ltL {x y : String} (h : ltL x.data y.data = true) : x ≠ y :=
  fun e => ne_of_ltL h (congrArg String.data e)

/-- C2, counterexample: deleting a reference whose object does not exist is
not a success on the S3 backend — `S3Storage.Delete` of a well-formed
reference over an empty bucket reports a `file not found` error. -/
theorem C2_counterexample :
    (s3Delete [] (s3GetURL "mybucket" "us-east-1" "avatar/x.png")).2 =
      some "file not found: avatar/x.png" := rfl

/-- C2, amended: only `LocalStorage.Delete` is idempotent.  For every
parseable reference the local backend reports success when the file is
missing, and two successive deletes both report success; `S3Storage.Delete`
instead returns a `file not found` error whenever the object is absent, so
the second of two immediate deletes always fails. -/
theorem C2_idempotent_delete :
    (∀ (basePath : String) (fs : List String) (ref rel : String),
      extractPathFromURL ref = .ok rel →
      fs.contains (goJoin basePath rel) = false →
      localDelete basePath fs ref = (fs, none)) ∧
    (∀ (basePath : String) (fs : List String) (ref rel : String),
      extractPathFromURL ref = .ok rel →
      (localDelete basePath fs ref).2 = none ∧
      (localDelete basePath (localDelete basePath fs ref).1 ref).2 = none) ∧
    (∀ (objs : List S3Object) (ref key : String),
      extractPathFromURL ref = .ok key →
      objs.any (fun o => o.key == key) = false →
      s3Delete objs ref = (objs, some ("file not found: " ++ key))) ∧
    (∀ (objs : List S3Object) (ref key : String),
      extractPathFromURL ref = .ok key →
      (s3Delete (s3Delete objs ref).1 ref).2 = some ("file not found: " ++ key)) := by
  refine ⟨?_, ?_, ?_, ?_⟩
  · intro basePath fs ref rel h hc
    simp only [localDelete, h, hc, Bool.false_eq_true, if_false]
  · intro basePath fs ref rel h
    exact ⟨localDelete_err_none h, localDelete_err_none h⟩
  · intro objs ref key h hany
    simp [s3Delete, h, hany]
  · intro objs ref key h
    simp only [s3Delete, h]
    cases hany : objs.any (fun o => o.key == key) with
    | false => simp [hany]
    | true => simp [hany, any_filter_not]

/-- C2, witness of the amended statement at concrete inputs. -/
theorem C2_witness :
    localDelete "uploads" [] "/uploads/general/x.txt" = ([], none) ∧
    (localDelete "uploads" (localDelete "uploads" ["uploads/a/b.png"] "/uploads/a/b.png").1
      "/uploads/a/b.png").2 = none ∧
    s3Delete [] "/uploads/a/b.png" = ([], some "file not found: a/b.png") ∧
    (s3Delete (s3Delete [⟨"a/b.png", 0⟩] "/uploads/a/b.png").1 "/uploads/a/b.png").2 =
      some "file not found: a/b.png" :=
  ⟨C2_idempotent_delete.1 "uploads" [] "/uploads/general/x.txt" "general/x.txt" rfl rfl,
   (C2_idempotent_delete.2.1 "uploads" ["uploads/a/b.png"] "/uploads/a/b.png" "a/b.png" rfl).2,
   C2_idempotent_delete.2.2.1 [] "/uploads/a/b.png" "a/b.png" rfl rfl,
   C2_idempotent_delete.2.2.2 [⟨"a/b.png", 0⟩] "/uploads/a/b.png" "a/b.png" rfl⟩

/-- C6, counterexample: for the S3 backend the key `avatar/a?b.png` (a
relative path using forward slashes) does not survive the round-trip — the
normalisation parses the URL and drops everything after the `?`. -/
theorem C6_counterexample :
    extractPathFromURL (s3GetURL "mybucket" "us-east-1" "avatar/a?b.png") =
      .ok "avatar/a" ∧ "avatar/a" ≠ "avatar/a?b.png" :=
  ⟨rfl, by decide⟩

/-- C6, amended: `GetURL` is a pure function of the key and the backend's
configuration, and `extractPathFromURL` (the normalisation `Get`/`Delete`
apply) inverts it — for the local backend on every backslash-free key, and
for the S3 backend on keys free of `?`, `#`, `%` and control characters
(the counterexample shows a `?` key breaks the inverse). -/
theorem C6_getURL_roundtrip :
    (∀ k : String, (∀ c ∈ k.data, c ≠ '\\') →
      extractPathFromURL (localGetURL k) = .ok k) ∧
    (∀ bucket region key : String,
      bucket.data.all hostCharOK = true → region.data.all hostCharOK = true →
      key.data.all s3KeyCharOK = true →
      extractPathFromURL (s3GetURL bucket region key) = .ok key) :=
  ⟨extractPathFromURL_localGetURL, extractPathFromURL_s3GetURL⟩

/-- C6, witness of the amended statement at concrete inputs. -/
theorem C6_witness :
    extractPathFromURL (localGetURL "general/note.txt") = .ok "general/note.txt" ∧
    extractPathFromURL (s3GetURL "mybucket" "us-east-1" "avatar/x.png") =
      .ok "avatar/x.png" :=
  ⟨C6_getURL_roundtrip.1 "general/note.txt" (by decide),
   C6_getURL_roundtrip.2 "mybucket" "us-east-1" "avatar/x.png"
     (by decide) (by decide) (by decide)⟩

/-- C8, counterexample: no sanitisation is applied to the base filename —
for the upload name `../../evil.txt` the generated key keeps the `..`
elements, `filepath.Join` resolves them, and the object is stored outside
the destination prefix `general/`. -/
theorem C8_counterexample :
    generateUniqueFilename "20250101000000" "abcd1234" "../../evil.txt" =
      "../../evil-20250101000000-abcd1234.txt" ∧
    saveRelativePath "20250101000000" "abcd1234" "../../evil.txt" "general" =
      "../evil-20250101000000-abcd1234.txt" ∧
    goHasPrefix
      (saveRelativePath "20250101000000" "abcd1234" "../../evil.txt" "general")
      "general/" = false :=
  ⟨rfl, rfl, rfl⟩

/-- C8, amended: when the destination prefix and the generated filename
consist of plain path elements (non-empty, not `.` or `..` — nothing is
sanitised, so this is a hypothesis, not a guarantee), the stored key is the
destination prefix, a separator, and the unsanitised base name joined with
the timestamp and the random suffix; it lies under the destination prefix
and retains the original extension. -/
theorem C8_save_key (ts id fn dir : String)
    (hd : (splitSlash dir.data).all cleanPart = true)
    (hf : (splitSlash (generateUniqueFilename ts id fn).data).all cleanPart = true) :
    saveRelativePath ts id fn dir = dir ++ "/" ++ generateUniqueFilename ts id fn ∧
    goHasPrefix (saveRelativePath ts id fn dir) (dir ++ "/") = true ∧
    hasSuffixL (generateUniqueFilename ts id fn).data (goExt fn).data = true := by
  have hjoin : saveRelativePath ts id fn dir =
      dir ++ "/" ++ generateUniqueFilename ts id fn :=
    goJoin_clean (List.all_eq_true.mp hd) (List.all_eq_true.mp hf)
  refine ⟨hjoin, ?_, ?_⟩
  · rw [hjoin]
    exact goHasPrefix_append (dir ++ "/") (generateUniqueFilename ts id fn)
  · show hasSuffixL
      ((goTrimSuffix fn (goExt fn) ++ "-" ++ ts ++ "-" ++ id ++ goExt fn)).data
      (goExt fn).data = true
    rw [data_append]
    exact hasSuffixL_append _ _

/-- C8, witness of the amended statement at concrete inputs. -/
theorem C8_witness :
    saveRelativePath "20250101000000" "abcd1234" "note.txt" "general" =
      "general/" ++ "note-20250101000000-abcd1234.txt" ∧
    goHasPrefix (saveRelativePath "20250101000000" "abcd1234" "note.txt" "general")
      ("general" ++ "/") = true ∧
    hasSuffixL (generateUniqueFilename "20250101000000" "abcd1234" "note.txt").data
      (goExt "note.txt").data = true := by
  have h := C8_save_key "20250101000000" "abcd1234" "note.txt" "general"
    (by decide) (by decide)
  exact ⟨by rw [h.1]; decide, h.2.1, h.2.2⟩

/-- C9, counterexample: a foreign-format reference is not rejected — an
S3-style URL handed to `LocalStorage.Delete` is silently normalised to a
local relative path and the local object at that path is deleted with a
success result, exactly the mis-deletion the claim rules out. -/
theorem C9_counterexample :
    extractPathFromURL "https://mybucket.s3.us-east-1.amazonaws.com/avatar/x.png" =
      .ok "avatar/x.png" ∧
    localDelete "uploads" ["uploads/avatar/x.png"]
      "https://mybucket.s3.us-east-1.amazonaws.com/avatar/x.png" = ([], none) :=
  ⟨rfl, rfl⟩

/-- C9, amended: `extractPathFromURL` performs no cross-backend format
check and never returns a configuration error: an `http(s)` URL (in
particular every S3 public URL) is normalised to its path, a `/uploads/`
reference to its suffix, and anything else passes through unchanged; a
foreign S3-format reference handed to `LocalStorage.Delete` therefore
resolves to a local path and the delete reports no error. -/
theorem C9_no_failfast :
    (∀ bucket region key : String,
      bucket.data.all hostCharOK = true → region.data.all hostCharOK = true →
      key.data.all s3KeyCharOK = true →
      extractPathFromURL (s3GetURL bucket region key) = .ok key) ∧
    (∀ k : String, extractPathFromURL ("/uploads/" ++ k) = .ok k) ∧
    (∀ r : String, goHasPrefix r "http://" = false → goHasPrefix r "https://" = false →
      goHasPrefix r "/uploads/" = false → extractPathFromURL r = .ok r) ∧
    (∀ (basePath : String) (fs : List String) (bucket region key : String),
      bucket.data.all hostCharOK = true → region.data.all hostCharOK = true →
      key.data.all s3KeyCharOK = true →
      (localDelete basePath fs (s3GetURL bucket region key)).2 = none) := by
  refine ⟨extractPathFromURL_s3GetURL, extractPathFromURL_uploads,
    extractPathFromURL_passthrough, ?_⟩
  intro basePath fs bucket region key hb hr hk
  exact localDelete_err_none (extractPathFromURL_s3GetURL bucket region key hb hr hk)

/-- C9, witness of the amended statement at concrete inputs. -/
theorem C9_witness :
    extractPathFromURL (s3GetURL "mybucket" "us-east-1" "avatar/x.png") =
      .ok "avatar/x.png" ∧
    extractPathFromURL ("/uploads/" ++ "avatar/x.png") = .ok "avatar/x.png" ∧
    extractPathFromURL "plain/rel.txt" = .ok "plain/rel.txt" ∧
    (localDelete "uploads" ["uploads/avatar/x.png"]
      (s3GetURL "mybucket" "us-east-1" "avatar/x.png")).2 = none :=
  ⟨C9_no_failfast.1 "mybucket" "us-east-1" "avatar/x.png" (by decide) (by decide) (by decide),
   C9_no_failfast.2.1 "avatar/x.png",
   C9_no_failfast.2.2.1 "plain/rel.txt" rfl rfl rfl,
   C9_no_failfast.2.2.2 "uploads" ["uploads/avatar/x.png"] "mybucket" "us-east-1"
     "avatar/x.png" (by decide) (by decide) (by decide)⟩

/-- C10: when the upload succeeds but the follow-up `HeadObject` fails or
reports no content length, `S3Storage.SaveFromReader` still returns
success, with `Size = 0` and the filename, content type and URL populated
normally — nothing in the result signals that the size is not the stored
object's size. -/
theorem C10_head_failure_size_zero (bucket region ts id fn ct dir : String)
    (head : HeadOutcome) (h : head = .err ∨ head = .ok none) :
    s3SaveFromReader bucket region none head ts id fn ct dir =
      .ok ⟨generateUniqueFilename ts id fn, 0, ct,
        s3GetURL bucket region
          (goReplaceBackslash (goJoin dir (generateUniqueFilename ts id fn)))⟩ := by
  rcases h with rfl | rfl <;> rfl

/-- C3: `CleanOrphanedFiles` never returns an error to its caller — when
the run completes it reports the aggregate counters with a `nil` error; a
prefix whose `cleanPrefix` fails (as a `ListBatch` error makes it do) does
not stop the run: the loop continues through every remaining prefix from
the post-failure state, only dropping the failed prefix's counters from
the totals; and a `ListBatch` error ends exactly its own prefix, with the
wrapped error. -/
theorem C3_run_never_errors :
    (∀ (σ : Type) (env : CleanupEnv σ) (fuel : Nat) (minAge : Int) (s : σ)
      (res : RunAcc σ × Option String),
      cleanOrphanedFiles env fuel minAge s = some res → res.2 = none) ∧
    (∀ (σ : Type) (env : CleanupEnv σ) (fuel : Nat) (minAge : Int) (a : RunAcc σ)
      (p : String) (l₂ : List String) (r : PrefixResult σ) (e : String),
      cleanPrefix env fuel minAge p a.st = some r → r.err = some e →
      runPrefixes env fuel minAge (p :: l₂) (some a) =
        runPrefixes env fuel minAge l₂
          (some ⟨r.st, a.processed, a.deleted, a.errors, a.delCalls ++ r.delCalls⟩)) ∧
    (∀ (σ : Type) (env : CleanupEnv σ) (minAge : Int) (p : String) (fuel : Nat) (s : σ)
      (lastKey : String) (tp td te : Nat) (calls : List CFileInfo) (e : String),
      env.listBatch s p lastKey batchSize = .error e →
      cleanPrefixLoop env minAge p (fuel + 1) s lastKey tp td te calls =
        some ⟨s, tp, td, te, calls, some ("failed to list files: " ++ e)⟩) := by
  refine ⟨?_, ?_, ?_⟩
  · intro σ env fuel minAge s res h
    rw [cleanOrphanedFiles] at h
    rcases Option.map_eq_some'.mp h with ⟨a, _, rfl⟩
    rfl
  · intro σ env fuel minAge a p l₂ r e hcp herr
    rw [runPrefixes, List.foldl_cons]
    rw [show runPrefixStep env fuel minAge (some a) p =
      some ⟨r.st, a.processed, a.deleted, a.errors, a.delCalls ++ r.delCalls⟩ by
        simp only [runPrefixStep, hcp, herr]]
    rfl
  · intro σ env minAge p fuel s lastKey tp td te calls e h
    rw [cleanPrefixLoop]
    simp only [h]

/-- C3, witness at concrete inputs (the always-failing listing
environment). -/
theorem C3_witness :
    ((⟨⟨(), 0, 0, 0, []⟩, none⟩ : RunAcc Unit × Option String)).2 = none ∧
    runPrefixes envErr 1 0 ["image/"] (some ⟨(), 0, 0, 0, []⟩) =
      runPrefixes envErr 1 0 []
        (some ⟨(), 0, 0, 0, ([] : List CFileInfo) ++ []⟩) ∧
    cleanPrefixLoop envErr 0 "image/" 1 () "" 0 0 0 [] =
      some ⟨(), 0, 0, 0, [], some ("failed to list files: " ++ "io")⟩ :=
  ⟨C3_run_never_errors.1 Unit envErr 1 0 () ⟨⟨(), 0, 0, 0, []⟩, none⟩ rfl,
   C3_run_never_errors.2.1 Unit envErr 1 0 ⟨(), 0, 0, 0, []⟩ "image/" []
     ⟨(), 0, 0, 0, [], some ("failed to list files: " ++ "io")⟩
     ("failed to list files: " ++ "io") rfl rfl,
   C3_run_never_errors.2.2 Unit envErr 0 "image/" 0 () "" 0 0 0 [] "io" rfl⟩

/-- C4, counterexample: with two pages under `image/` (100 old files, then
one more) and a failing cross-reference query, `cleanPrefix` stops at the
first page with the wrapped error and 100 processed files — the scan does
not advance past the failed page, and the second page of the same prefix is
never examined (the claim's "only that page's deletions are skipped" does
not hold). -/
theorem C4_counterexample :
    cleanPrefix envC4 5 0 "image/" () =
      some ⟨(), 100, 0, 0, [], some "failed to find orphaned files: db down"⟩ ∧
    envC4.listBatch () "image/" "/uploads/image/f199" batchSize =
      .ok [⟨"/uploads/image/f200", -1⟩] :=
  ⟨rfl, rfl⟩

/-- C4, amended: a cross-reference failure on a page aborts the remaining
pages of the current prefix — `cleanPrefix` returns at once with the
wrapped error, the failed page's eligible files counted as processed and
none of its deletions attempted — and the run then moves to the next
prefix; a failure of an individual `Delete` is counted and skipped without
aborting the page or the run. -/
theorem C4_crossref_scan_abort :
    (∀ (σ : Type) (env : CleanupEnv σ) (minAge : Int) (p : String) (fuel : Nat) (s : σ)
      (lastKey : String) (tp td te : Nat) (calls files : List CFileInfo) (e : String),
      env.listBatch s p lastKey batchSize = .ok files →
      files.isEmpty = false →
      (files.filter (fun f => f.modTime < minAge)).isEmpty = false →
      env.findOrphans s (files.filter (fun f => f.modTime < minAge)) = .error e →
      cleanPrefixLoop env minAge p (fuel + 1) s lastKey tp td te calls =
        some ⟨s, tp + (files.filter (fun f => f.modTime < minAge)).length, td, te, calls,
          some ("failed to find orphaned files: " ++ e)⟩) ∧
    (∀ (σ : Type) (env : CleanupEnv σ) (f : CFileInfo) (rest : List CFileInfo) (s s2 : σ)
      (d e : Nat) (calls : List CFileInfo) (msg : String),
      env.deleteFile s f.url = (s2, some msg) →
      deleteOrphans env (f :: rest) (s, d, e, calls) =
        deleteOrphans env rest (s2, d, e + 1, calls ++ [f])) ∧
    (∀ (σ : Type) (env : CleanupEnv σ) (fuel : Nat) (minAge : Int) (a : RunAcc σ)
      (p : String) (r : PrefixResult σ) (e : String),
      cleanPrefix env fuel minAge p a.st = some r → r.err = some e →
      runPrefixStep env fuel minAge (some a) p =
        some ⟨r.st, a.processed, a.deleted, a.errors, a.delCalls ++ r.delCalls⟩) := by
  refine ⟨?_, ?_, ?_⟩
  · intro σ env minAge p fuel s lastKey tp td te calls files e hlb hne hfne hfo
    rw [cleanPrefixLoop]
    simp only [hlb, hne, hfne, hfo, Bool.false_eq_true, if_false]
  · intro σ env f rest s s2 d e calls msg hdel
    simp only [deleteOrphans, hdel]
  · intro σ env fuel minAge a p r e hcp herr
    simp only [runPrefixStep, hcp, herr]

/-- C4, witness of the amended statement at concrete inputs. -/
theorem C4_witness :
    cleanPrefixLoop envC4 0 "image/" 5 () "" 0 0 0 [] =
      some ⟨(), 0 + (page1.filter (fun f => f.modTime < 0)).length, 0, 0, [],
        some ("failed to find orphaned files: " ++ "db down")⟩ ∧
    deleteOrphans envDelFail [⟨"/uploads/image/x", -1⟩] ((), 0, 0, []) =
      deleteOrphans envDelFail [] ((), 0, 0 + 1, [] ++ [⟨"/uploads/image/x", -1⟩]) ∧
    runPrefixStep envErr 1 0 (some ⟨(), 2, 3, 4, []⟩) "gif/" =
      some ⟨(), 2, 3, 4, ([] : List CFileInfo) ++ []⟩ :=
  ⟨C4_crossref_scan_abort.1 Unit envC4 0 "image/" 4 () "" 0 0 0 [] page1 "db down"
     rfl rfl (by decide) rfl,
   C4_crossref_scan_abort.2.1 Unit envDelFail ⟨"/uploads/image/x", -1⟩ [] () () 0 0 []
     "denied" rfl,
   C4_crossref_scan_abort.2.2 Unit envErr 1 0 ⟨(), 2, 3, 4, []⟩ "gif/"
     ⟨(), 0, 0, 0, [], some ("failed to list files: " ++ "io")⟩
     ("failed to list files: " ++ "io") rfl rfl⟩

/-- C7: within one run, every file the job passes to `storage.Delete` was
listed with a modification time strictly older than the grace cutoff
`minAge` — an object younger than the cutoff is never deleted, referenced
or not.  The hypothesis states the (proved, for the real
`findOrphanedFiles`) fact that the cross-reference step only returns files
it was given. -/
theorem C7_grace_period :
    ∀ (σ : Type) (env : CleanupEnv σ),
      (∀ (s : σ) (files r : List CFileInfo),
        env.findOrphans s files = .ok r → ∀ f ∈ r, f ∈ files) →
      ∀ (fuel : Nat) (minAge : Int) (s : σ) (res : RunAcc σ × Option String),
        cleanOrphanedFiles env fuel minAge s = some res →
        ∀ f ∈ res.1.delCalls, f.modTime < minAge := by
  intro σ env hFO fuel minAge s res h
  rw [cleanOrphanedFiles] at h
  rcases Option.map_eq_some'.mp h with ⟨a, ha, rfl⟩
  intro f hf
  rcases runPrefixes_delCalls env hFO fuel minAge cleanupPrefixes ⟨s, 0, 0, 0, []⟩ a ha
    f hf with hf2 | hf2
  · exact absurd hf2 (List.not_mem_nil f)
  · exact hf2

/-- C7, witness: in a run over one old orphaned object, the file the job
deleted is indeed older than the cutoff. -/
theorem C7_witness :
    (⟨"/uploads/image/o.png", -10⟩ : CFileInfo).modTime < 0 :=
  C7_grace_period (List CFileInfo) (localEnv ⟨[], [], [], []⟩)
    (localEnv_findOrphans_subset ⟨[], [], [], []⟩) 1 0
    [⟨"/uploads/image/o.png", -10⟩]
    ⟨⟨[], 1, 1, 0, [⟨"/uploads/image/o.png", -10⟩]⟩, none⟩ rfl
    ⟨"/uploads/image/o.png", -10⟩ (by simp)

/-- C10, witness at concrete inputs. -/
theorem C10_witness :
    s3SaveFromReader "b" "r" none .err "20250101000000" "abcd1234" "a.png" "image/png"
      "image" =
      .ok ⟨generateUniqueFilename "20250101000000" "abcd1234" "a.png", 0, "image/png",
        s3GetURL "b" "r" (goReplaceBackslash (goJoin "image"
          (generateUniqueFilename "20250101000000" "abcd1234" "a.png")))⟩ :=
  C10_head_failure_size_zero "b" "r" "20250101000000" "abcd1234" "a.png" "image/png"
    "image" .err (Or.inl rfl)

end Kudoboard
